import Mathlib

/-!
Verification of the Trial-to-Continuum Timeline Assembler of the
turner-lab-to-nwb repository (asap_m1_mptp conversion).

The repository ships the behaviour of the assembler in its documentation
(`how_we_deal_with_trialized_data.md`, `nwb_conversion.md`,
`nwbfile_structure.md`): trials are concatenated onto one absolute
timeline with a fixed synthetic inter-trial gap (default 3.0 s), gaps are
annotated in an `invalid_times` table, each unit receives `obs_intervals`
equal to the trial intervals, continuous streams are concatenated using
their own per-trial sample counts, and per-trial spike records (the
NaN-padded `unit_ts` matrix or its compact 1-D variant) are normalized
and shifted by the trial start offsets.

Times are modelled as rationals; the NaN padding of `unit_ts` is
modelled as `Option` (`none` = NaN).  The Python interface modules
(`trials_interface.py`, `spike_times_interface.py`, `lfp_interface.py`,
`emg_interface.py`, `manipulandum_interface.py`) are not part of the
source tree here, so the definitions below are modelled from the spec
and from the documented algorithms.
-/

namespace TurnerLab

/-- Modelled from the spec: the Global Timeline Builder of the missing
`trials_interface.py`.  Walking the ordered list of authoritative trial
durations with a running offset `t0`, each trial `i` receives the
half-open interval `[start i, start i + duration i)` and the next trial
starts a gap `g` later. -/
def buildTimelineAux (g t0 : ℚ) : List ℚ → List (ℚ × ℚ)
  | [] => []
  | d :: rest => (t0, t0 + d) :: buildTimelineAux g (t0 + d + g) rest

/-- The Trial Intervals `[start i, stop i)` of a session, first trial at 0. -/
def buildTimeline (durations : List ℚ) (g : ℚ) : List (ℚ × ℚ) :=
  buildTimelineAux g 0 durations

/-- The absolute start offsets of the trials (called `trial_start_times`
in the documented concatenation loops). -/
def trial_start_times (durations : List ℚ) (g : ℚ) : List ℚ :=
  (buildTimeline durations g).map Prod.fst

/-- Modelled from the spec: the Gap Intervals `[stop i, start (i+1))`
produced between consecutive trials by the missing `trials_interface.py`. -/
def gapIntervalsAux (g t0 : ℚ) : List ℚ → List (ℚ × ℚ)
  | [] => []
  | [_] => []
  | d :: e :: rest => (t0 + d, t0 + d + g) :: gapIntervalsAux g (t0 + d + g) (e :: rest)

/-- The Gap Intervals of a session. -/
def gapIntervals (durations : List ℚ) (g : ℚ) : List (ℚ × ℚ) :=
  gapIntervalsAux g 0 durations

/-- The stop time of the last trial, i.e. the end of the session span. -/
def totalSessionDurationAux (g t0 : ℚ) : List ℚ → ℚ
  | [] => t0
  | [d] => t0 + d
  | d :: e :: rest => totalSessionDurationAux g (t0 + d + g) (e :: rest)

/-- Total session duration: the stop time of the last trial. -/
def totalSessionDuration (durations : List ℚ) (g : ℚ) : ℚ :=
  totalSessionDurationAux g 0 durations

/-- Membership of a time point in a half-open interval `[p.1, p.2)`. -/
def containsB (t : ℚ) (p : ℚ × ℚ) : Bool :=
  decide (p.1 ≤ t ∧ t < p.2)

/-- One row of the session-wide `invalid_times` table. -/
structure InvalidTimeRow where
  start_time : ℚ
  stop_time : ℚ
  tags : List String
deriving DecidableEq

/-- Modelled from the spec: the Validity Annotator half of the missing
`trials_interface.py` writes one `invalid_times` row per inter-trial gap,
tagged `artificial_inter_trial_gap` and `not_recorded`. -/
def invalid_times (durations : List ℚ) (g : ℚ) : List InvalidTimeRow :=
  (gapIntervals durations g).map
    (fun p => ⟨p.1, p.2, ["artificial_inter_trial_gap", "not_recorded"]⟩)

/-- Modelled from the spec: the Validity Annotator half of the missing
`spike_times_interface.py` gives every unit an `obs_intervals` list equal
to the full list of Trial Intervals. -/
def obs_intervals (durations : List ℚ) (g : ℚ) : List (ℚ × ℚ) :=
  buildTimeline durations g

/-- Timestamps of one trial of a continuous stream: the documented loop
`trial_start + np.arange(len(trial_data)) / rate` with the stream's own
per-trial sample count `n`. -/
def trialTimestamps (start : ℚ) (n : ℕ) (r : ℚ) : List ℚ :=
  (List.range n).map (fun (k : ℕ) => start + (k : ℚ) / r)

/-- Stream Concatenator timestamps, starting the walk at offset `t0`. -/
def concatFromAux (g r t0 : ℚ) (durations : List ℚ) (counts : List ℕ) : List ℚ :=
  (List.zipWith (fun p n => trialTimestamps p.1 n r)
    (buildTimelineAux g t0 durations) counts).flatten

/-- Modelled from the spec: the Stream Concatenator of the missing analog
interfaces (`lfp_interface.py`, `emg_interface.py`,
`manipulandum_interface.py`): per trial `i` it emits
`start i + k / r` for `k < counts i` and concatenates across trials,
inserting nothing for the gaps. -/
def concatTimestamps (durations : List ℚ) (g : ℚ) (counts : List ℕ) (r : ℚ) : List ℚ :=
  concatFromAux g r 0 durations counts

/-- A raw per-session spike-time record: either the NaN-padded 2-D
`unit_ts` matrix (trials × padded spike slots) or the compact 1-D vector
(one value per trial).  `none` models the NaN padding. -/
inductive SpikeRecord where
  | matrix (rows : List (List (Option ℚ)))
  | vector (vals : List (Option ℚ))
deriving DecidableEq

/-- The leading dimension of a raw spike record. -/
def spikeLeadingDim : SpikeRecord → ℕ
  | .matrix rows => rows.length
  | .vector vals => vals.length

/-- One matrix row normalized: padding removed, remaining entries sorted
ascending. -/
def normalizeRow (row : List (Option ℚ)) : List ℚ :=
  List.insertionSort (· ≤ ·) (row.filterMap id)

/-- Modelled from the spec: the Spike Format Normalizer of the missing
`spike_times_interface.py`, classifying the record purely by
dimensionality and returning one list of trial-relative spike times per
trial. -/
def normalizeSpikes : SpikeRecord → List (List ℚ)
  | .matrix rows => rows.map normalizeRow
  | .vector vals => vals.map fun v =>
      match v with
      | some x => [x]
      | none => []

/-- Modelled from the spec: the discrete-stream half of the Concatenator
in the missing `spike_times_interface.py`: each per-trial spike time (in
milliseconds) is converted to seconds and shifted by its trial's start
offset, then the trials are concatenated in index order. -/
def concatSpikeTimes (starts : List ℚ) (perTrial : List (List ℚ)) : List ℚ :=
  (List.zipWith (fun s l => l.map (fun x => s + x / 1000)) starts perTrial).flatten

/-- Spike concatenation with the walk started at offset `t0`. -/
def spikesFromAux (g t0 : ℚ) (durations : List ℚ) (perTrial : List (List ℚ)) : List ℚ :=
  (List.zipWith (fun p l => l.map (fun x => p.1 + x / 1000))
    (buildTimelineAux g t0 durations) perTrial).flatten

/-- A raw trial as handed to the core: its named event bag (trial-relative
times, milliseconds). -/
structure RawTrial where
  events : List (String × ℚ)
deriving DecidableEq

/-- A raw session as handed to the core: ordered trials, one raw spike
record per unit, and per continuous stream the per-trial sample arrays. -/
structure RawSession where
  trials : List RawTrial
  spikeRecords : List SpikeRecord
  streams : List (List (List ℚ))

/-- Modelled from the spec: the Trial Duration Resolver — the designated
trial-end event is the `end` field of the `Events` structure; a trial
without it is a structural error. -/
def resolveTrialDuration (tr : RawTrial) : Except String ℚ :=
  match tr.events.lookup "end" with
  | some v => .ok v
  | none => .error "missing designated trial-end event"

/-- Modelled from the spec: the structural check of the Spike Format
Normalizer — a record whose leading dimension differs from the session's
trial count aborts the session. -/
def checkSpikeRecord (n : ℕ) (rec : SpikeRecord) : Except String (List (List ℚ)) :=
  if spikeLeadingDim rec = n then .ok (normalizeSpikes rec)
  else .error "spike-record leading dimension mismatched against trial count"

/-- Modelled from the spec: a Continuous Stream whose per-trial array list
is shorter than the trial count aborts the session. -/
def checkStream (n : ℕ) (s : List (List ℚ)) : Except String (List (List ℚ)) :=
  if s.length < n then .error "per-trial array list shorter than trial count"
  else .ok s

/-- Sequential fallible map: the first structural error aborts the walk. -/
def exceptMapM (f : α → Except String β) : List α → Except String (List β)
  | [] => .ok []
  | x :: xs =>
    match f x with
    | .error e => .error e
    | .ok y =>
      match exceptMapM f xs with
      | .error e => .error e
      | .ok ys => .ok (y :: ys)

/-- The artifacts of a fully assembled session. -/
structure AssembledSession where
  timeline : List (ℚ × ℚ)
  gaps : List (ℚ × ℚ)
  invalidRows : List InvalidTimeRow
  unitSpikes : List (List ℚ)
  unitObs : List (List (ℚ × ℚ))
  streams : List (List (List ℚ))

/-- Modelled from the spec: the Session Assembler of the missing
conversion modules — resolve every trial duration, validate every spike
record and stream, then build the timeline, gap annotations, per-unit
spike arrays and observation intervals.  Any structural error aborts the
whole session with no partial output. -/
def assembleSession (g : ℚ) (s : RawSession) : Except String AssembledSession :=
  match exceptMapM resolveTrialDuration s.trials with
  | .error e => .error e
  | .ok durations =>
    match exceptMapM (checkSpikeRecord s.trials.length) s.spikeRecords with
    | .error e => .error e
    | .ok units =>
      match exceptMapM (checkStream s.trials.length) s.streams with
      | .error e => .error e
      | .ok streams =>
        .ok { timeline := buildTimeline durations g
              gaps := gapIntervals durations g
              invalidRows := invalid_times durations g
              unitSpikes :=
                units.map (fun u => concatSpikeTimes (trial_start_times durations g) u)
              unitObs := units.map (fun _ => obs_intervals durations g)
              streams := streams }

theorem buildTimelineAux_length (g : ℚ) (ds : List ℚ) : ∀ t0 : ℚ,
    (buildTimelineAux g t0 ds).length = ds.length := by
  induction ds with
  | nil => intro t0; rfl
  | cons d rest ih => intro t0; simp [buildTimelineAux, ih]

theorem buildTimelineAux_getD_zero_fst (g : ℚ) (ds : List ℚ) (t0 : ℚ) (h : ds ≠ []) :
    ((buildTimelineAux g t0 ds).getD 0 (0, 0)).1 = t0 := by
  cases ds with
  | nil => exact absurd rfl h
  | cons d rest => simp [buildTimelineAux]

theorem buildTimelineAux_stop (g : ℚ) (ds : List ℚ) : ∀ (t0 : ℚ) (i : ℕ), i < ds.length →
    ((buildTimelineAux g t0 ds).getD i (0, 0)).2
      = ((buildTimelineAux g t0 ds).getD i (0, 0)).1 + ds.getD i 0 := by
  induction ds with
  | nil => intro t0 i h; simp at h
  | cons d rest ih =>
    intro t0 i h
    cases i with
    | zero => simp [buildTimelineAux]
    | succ i =>
      simp only [List.length_cons] at h
      simpa [buildTimelineAux, List.getD_cons_succ] using ih (t0 + d + g) i (by omega)

theorem buildTimelineAux_succ_start (g : ℚ) (ds : List ℚ) :
    ∀ (t0 : ℚ) (i : ℕ), i + 1 < ds.length →
    ((buildTimelineAux g t0 ds).getD (i + 1) (0, 0)).1
      = ((buildTimelineAux g t0 ds).getD i (0, 0)).2 + g := by
  induction ds with
  | nil => intro t0 i h; simp at h
  | cons d rest ih =>
    intro t0 i h
    cases i with
    | zero =>
      cases rest with
      | nil => simp at h
      | cons e rs => simp [buildTimelineAux]
    | succ i =>
      simp only [List.length_cons] at h
      simpa [buildTimelineAux, List.getD_cons_succ] using ih (t0 + d + g) i (by omega)

theorem gapIntervalsAux_length (g : ℚ) (ds : List ℚ) : ∀ t0 : ℚ,
    (gapIntervalsAux g t0 ds).length = ds.length - 1 := by
  induction ds with
  | nil => intro t0; rfl
  | cons d rest ih =>
    intro t0
    cases rest with
    | nil => rfl
    | cons e rs => simp [gapIntervalsAux, ih (t0 + d + g)]

theorem gapIntervalsAux_getD (g : ℚ) (ds : List ℚ) :
    ∀ (t0 : ℚ) (i : ℕ), i + 1 < ds.length →
    (gapIntervalsAux g t0 ds).getD i (0, 0)
      = (((buildTimelineAux g t0 ds).getD i (0, 0)).2,
         ((buildTimelineAux g t0 ds).getD (i + 1) (0, 0)).1) := by
  induction ds with
  | nil => intro t0 i h; simp at h
  | cons d rest ih =>
    intro t0 i h
    cases rest with
    | nil => simp at h
    | cons e rs =>
      cases i with
      | zero => simp [gapIntervalsAux, buildTimelineAux]
      | succ i =>
        simp only [List.length_cons] at h
        simpa [gapIntervalsAux, buildTimelineAux, List.getD_cons_succ]
          using ih (t0 + d + g) i (by simp only [List.length_cons]; omega)

/-- C1: the Global Timeline Builder is exact: `start 0 = 0`,
`stop i = start i + duration i` for every trial, `start (i+1) = stop i + g`
(equivalently the spacing between consecutive trials is exactly `g`), and
the Gap Intervals are precisely `[stop i, start (i+1))` for
`i ∈ 0 .. n-2`. -/
theorem claim1_global_timeline_builder (ds : List ℚ) (g : ℚ) :
    (buildTimeline ds g).length = ds.length ∧
    (gapIntervals ds g).length = ds.length - 1 ∧
    (0 < ds.length → ((buildTimeline ds g).getD 0 (0, 0)).1 = 0) ∧
    (∀ i, i < ds.length →
      ((buildTimeline ds g).getD i (0, 0)).2
        = ((buildTimeline ds g).getD i (0, 0)).1 + ds.getD i 0) ∧
    (∀ i, i + 1 < ds.length →
      ((buildTimeline ds g).getD (i + 1) (0, 0)).1
          = ((buildTimeline ds g).getD i (0, 0)).2 + g ∧
      (gapIntervals ds g).getD i (0, 0)
          = (((buildTimeline ds g).getD i (0, 0)).2,
             ((buildTimeline ds g).getD (i + 1) (0, 0)).1)) := by
  refine ⟨buildTimelineAux_length g ds 0, gapIntervalsAux_length g ds 0, ?_, ?_, ?_⟩
  · intro h
    exact buildTimelineAux_getD_zero_fst g ds 0 (by intro hnil; simp [hnil] at h)
  · intro i h
    exact buildTimelineAux_stop g ds 0 i h
  · intro i h
    exact ⟨buildTimelineAux_succ_start g ds 0 i h, gapIntervalsAux_getD g ds 0 i h⟩

/-- C1 witness: the timeline of three trials of durations 5, 6, 4.5 s with
gap 3 s satisfies the builder contract at trial index 1. -/
theorem claim1_witness :
    ((buildTimeline [5, 6, 9/2] 3).getD 1 (0, 0)).2
        = ((buildTimeline [5, 6, 9/2] 3).getD 1 (0, 0)).1 + ([(5 : ℚ), 6, 9/2]).getD 1 0 ∧
    ((buildTimeline [5, 6, 9/2] 3).getD 1 (0, 0)).1
        = ((buildTimeline [5, 6, 9/2] 3).getD 0 (0, 0)).2 + 3 ∧
    ((buildTimeline [5, 6, 9/2] 3).getD 0 (0, 0)).1 = 0 := by
  have h := claim1_global_timeline_builder [5, 6, 9/2] 3
  exact ⟨h.2.2.2.1 1 (by norm_num), (h.2.2.2.2 0 (by norm_num)).1, h.2.2.1 (by norm_num)⟩

/-- C7: three trials with authoritative durations 5.0, 6.0, 4.5 s and gap
3.0 s yield trial starts 0.0, 8.0, 17.0 and exactly the two Invalid-Time
Intervals `[5.0, 8.0)` and `[14.0, 17.0)`. -/
theorem claim7_concrete_scenario_a :
    trial_start_times [5, 6, 9/2] 3 = [0, 8, 17] ∧
    (invalid_times [5, 6, 9/2] 3).length = 2 ∧
    (invalid_times [5, 6, 9/2] 3).map (fun row => (row.start_time, row.stop_time))
      = [(5, 8), (14, 17)] := by
  norm_num [trial_start_times, buildTimeline, buildTimelineAux, invalid_times,
    gapIntervals, gapIntervalsAux]

/-- C8: the vector-form spike record `[NaN, 244.0, NaN]` (milliseconds,
3 trials) with trial starts 0.0, 8.0, 17.0 s normalizes and remaps to the
single absolute spike time 8.244 s. -/
theorem claim8_concrete_scenario_b :
    concatSpikeTimes [0, 8, 17]
        (normalizeSpikes (SpikeRecord.vector [none, some 244, none])) = [8.244] := by
  norm_num [concatSpikeTimes, normalizeSpikes]

/-- C9: every row of the session-wide `invalid_times` table carries exactly
the two tags `artificial_inter_trial_gap` and `not_recorded`, and an
n-trial session has exactly n-1 rows, one per inter-trial gap. -/
theorem claim9_invalid_times_rows (ds : List ℚ) (g : ℚ) :
    (∀ row ∈ invalid_times ds g,
      row.tags = ["artificial_inter_trial_gap", "not_recorded"]) ∧
    (invalid_times ds g).length = ds.length - 1 := by
  constructor
  · intro row hrow
    simp only [invalid_times, List.mem_map] at hrow
    obtain ⟨p, _, rfl⟩ := hrow
    rfl
  · simp [invalid_times, gapIntervals, gapIntervalsAux_length]

/-- C9 witness: the first gap row of the three-trial session with
durations 5, 6, 4.5 s and gap 3 s carries the two fixed tags. -/
theorem claim9_witness :
    (⟨5, 8, ["artificial_inter_trial_gap", "not_recorded"]⟩ : InvalidTimeRow).tags
      = ["artificial_inter_trial_gap", "not_recorded"] :=
  (claim9_invalid_times_rows [5, 6, 9/2] 3).1
    ⟨5, 8, ["artificial_inter_trial_gap", "not_recorded"]⟩
    (by norm_num [invalid_times, gapIntervals, gapIntervalsAux])

theorem totalSessionDurationAux_ge (g : ℚ) (hg : 0 ≤ g) (ds : List ℚ) :
    ∀ t0 : ℚ, (∀ d ∈ ds, 0 ≤ d) → t0 ≤ totalSessionDurationAux g t0 ds := by
  induction ds with
  | nil => intro t0 _; exact le_refl t0
  | cons d rest ih =>
    intro t0 hds
    have hd : 0 ≤ d := hds d (List.mem_cons_self d rest)
    cases rest with
    | nil => simpa [totalSessionDurationAux] using by linarith
    | cons e rs =>
      have h := ih (t0 + d + g) (fun x hx => hds x (List.mem_cons_of_mem d hx))
      calc t0 ≤ t0 + d + g := by linarith
        _ ≤ _ := h

theorem indicator_adjacent {t a b c : ℚ} (hab : a ≤ b) (hbc : b ≤ c) :
    ((if a ≤ t ∧ t < b then 1 else 0) : ℕ) + (if b ≤ t ∧ t < c then 1 else 0)
      = if a ≤ t ∧ t < c then 1 else 0 := by
  rcases lt_or_le t b with h | h
  · rcases le_or_lt a t with ha | ha
    · rw [if_pos ⟨ha, h⟩, if_neg (fun k => absurd k.1 (not_le.mpr h)),
        if_pos ⟨ha, lt_of_lt_of_le h hbc⟩]
    · rw [if_neg (fun k => absurd k.1 (not_le.mpr ha)),
        if_neg (fun k => absurd k.1 (not_le.mpr h)),
        if_neg (fun k => absurd k.1 (not_le.mpr ha))]
  · rcases lt_or_le t c with hc | hc
    · rw [if_neg (fun k => absurd k.2 (not_lt.mpr h)), if_pos ⟨h, hc⟩,
        if_pos ⟨le_trans hab h, hc⟩]
    · rw [if_neg (fun k => absurd k.2 (not_lt.mpr h)),
        if_neg (fun k => absurd k.2 (not_lt.mpr hc)),
        if_neg (fun k => absurd k.2 (not_lt.mpr hc))]

theorem tiling_countP_aux (g : ℚ) (hg : 0 ≤ g) (ds : List ℚ) :
    ∀ (t0 t : ℚ), (∀ d ∈ ds, 0 ≤ d) →
    (buildTimelineAux g t0 ds).countP (containsB t)
        + (gapIntervalsAux g t0 ds).countP (containsB t)
      = if t0 ≤ t ∧ t < totalSessionDurationAux g t0 ds then 1 else 0 := by
  induction ds with
  | nil =>
    intro t0 t _
    simp only [buildTimelineAux, gapIntervalsAux, totalSessionDurationAux,
      List.countP_nil, Nat.add_zero]
    rw [if_neg]
    rintro ⟨h1, h2⟩
    linarith
  | cons d rest ih =>
    intro t0 t hds
    have hd : 0 ≤ d := hds d (List.mem_cons_self d rest)
    cases rest with
    | nil =>
      simp only [buildTimelineAux, gapIntervalsAux, totalSessionDurationAux,
        List.countP_cons, List.countP_nil, containsB, decide_eq_true_eq, Nat.zero_add,
        Nat.add_zero]
    | cons e rs =>
      have hrest : ∀ x ∈ e :: rs, 0 ≤ x := fun x hx => hds x (List.mem_cons_of_mem d hx)
      have hIH := ih (t0 + d + g) t hrest
      have h1 : t0 ≤ t0 + d := by linarith
      have h2 : t0 + d ≤ t0 + d + g := by linarith
      have h3 : t0 + d + g ≤ totalSessionDurationAux g (t0 + d + g) (e :: rs) :=
        totalSessionDurationAux_ge g hg (e :: rs) (t0 + d + g) hrest
      have hm1 := indicator_adjacent (t := t) h2 h3
      have hm2 := indicator_adjacent (t := t) h1 (le_trans h2 h3)
      simp only [buildTimelineAux, gapIntervalsAux, totalSessionDurationAux,
        List.countP_cons, containsB, decide_eq_true_eq] at hIH hm1 hm2 ⊢
      omega

/-- C2: for any session with non-negative durations and non-negative gap,
the union of the Invalid-Time Intervals (the Gap Intervals) and any one
Unit's Observation Intervals (the Trial Intervals) exactly tiles
`[0, total_session_duration)`: every time point in that span lies in
exactly one of the intervals, and no time point outside it lies in any;
moreover every Unit's Observation-Intervals list is the full list of
Trial Intervals. -/
theorem claim2_tiling_invariant (ds : List ℚ) (g : ℚ)
    (hg : 0 ≤ g) (hds : ∀ d ∈ ds, 0 ≤ d) (t : ℚ) :
    (obs_intervals ds g ++ gapIntervals ds g).countP (containsB t)
        = (if 0 ≤ t ∧ t < totalSessionDuration ds g then 1 else 0) ∧
    obs_intervals ds g = buildTimeline ds g := by
  refine ⟨?_, rfl⟩
  rw [List.countP_append]
  exact tiling_countP_aux g hg ds 0 t hds

/-- C2 witness: in the three-trial session with durations 5, 6, 4.5 s and
gap 3 s, the time point 1 s lies in exactly one of the trial/gap
intervals. -/
theorem claim2_witness :
    (obs_intervals [5, 6, 9/2] 3 ++ gapIntervals [5, 6, 9/2] 3).countP (containsB 1)
      = if (0 : ℚ) ≤ 1 ∧ (1 : ℚ) < totalSessionDuration [5, 6, 9/2] 3 then 1 else 0 :=
  (claim2_tiling_invariant [5, 6, 9/2] 3 (by norm_num)
    (by intro d hd; fin_cases hd <;> norm_num) 1).1

theorem getD_append_left {α : Type} [Inhabited α] (l1 l2 : List α) (i : ℕ)
    (h : i < l1.length) (d : α) : (l1 ++ l2).getD i d = l1.getD i d := by
  rw [List.getD_eq_getElem _ _ (by simp; omega), List.getD_eq_getElem _ _ h]
  exact List.getElem_append_left h

theorem getD_append_shift {α : Type} [Inhabited α] (l1 l2 : List α) (j : ℕ) (d : α) :
    (l1 ++ l2).getD (l1.length + j) d = l2.getD j d := by
  rcases Nat.lt_or_ge j l2.length with h | h
  · rw [List.getD_eq_getElem _ _ (by simp; omega), List.getD_eq_getElem _ _ h]
    rw [List.getElem_append_right (by omega)]
    congr 1
    omega
  · rw [List.getD_eq_default _ _ (by simp; omega), List.getD_eq_default _ _ (by omega)]

theorem getD_append_shift_len {α : Type} [Inhabited α] {l1 : List α} {n : ℕ}
    (l2 : List α) (j : ℕ) (d : α) (h : l1.length = n) :
    (l1 ++ l2).getD (n + j) d = l2.getD j d := by
  subst h
  exact getD_append_shift l1 l2 j d

theorem trialTimestamps_length (start : ℚ) (n : ℕ) (r : ℚ) :
    (trialTimestamps start n r).length = n := by
  rw [trialTimestamps, List.length_map, List.length_range]

theorem trialTimestamps_getD (start : ℚ) (n : ℕ) (r : ℚ) (k : ℕ) (h : k < n) :
    (trialTimestamps start n r).getD k 0 = start + (k : ℚ) / r := by
  rw [trialTimestamps,
    List.getD_eq_getElem _ _ (by rw [List.length_map, List.length_range]; exact h)]
  simp only [List.getElem_map, List.getElem_range]

theorem concatFromAux_cons (g r t0 d : ℚ) (ds : List ℚ) (n : ℕ) (cs : List ℕ) :
    concatFromAux g r t0 (d :: ds) (n :: cs)
      = trialTimestamps t0 n r ++ concatFromAux g r (t0 + d + g) ds cs := by
  simp [concatFromAux, buildTimelineAux]

theorem concatFromAux_length (g r : ℚ) (ds : List ℚ) :
    ∀ (counts : List ℕ) (t0 : ℚ), counts.length = ds.length →
    (concatFromAux g r t0 ds counts).length = counts.sum := by
  induction ds with
  | nil =>
    intro counts t0 hlen
    rw [List.length_eq_zero.mp hlen]
    rfl
  | cons d rest ih =>
    intro counts t0 hlen
    cases counts with
    | nil => simp at hlen
    | cons n cs =>
      rw [concatFromAux_cons, List.length_append, trialTimestamps_length,
        ih cs (t0 + d + g) (by simpa using hlen), List.sum_cons]

theorem concatFromAux_getD (g r : ℚ) (ds : List ℚ) :
    ∀ (counts : List ℕ) (t0 : ℚ) (i k : ℕ), i < ds.length → k < counts.getD i 0 →
    (concatFromAux g r t0 ds counts).getD ((counts.take i).sum + k) 0
      = ((buildTimelineAux g t0 ds).getD i (0, 0)).1 + (k : ℚ) / r := by
  induction ds with
  | nil => intro counts t0 i k hi _; simp at hi
  | cons d rest ih =>
    intro counts t0 i k hi hk
    cases counts with
    | nil => simp at hk
    | cons n cs =>
      cases i with
      | zero =>
        simp only [List.getD_cons_zero] at hk
        rw [concatFromAux_cons, List.take_zero, List.sum_nil, Nat.zero_add,
          getD_append_left _ _ k (by rw [trialTimestamps_length]; exact hk),
          trialTimestamps_getD _ _ _ _ hk]
        simp [buildTimelineAux]
      | succ i =>
        simp only [List.getD_cons_succ] at hk
        simp only [List.length_cons] at hi
        rw [concatFromAux_cons, List.take_succ_cons, List.sum_cons, Nat.add_assoc,
          getD_append_shift_len _ _ _ (trialTimestamps_length t0 n r),
          ih cs (t0 + d + g) i k (by omega) hk]
        simp [buildTimelineAux]

/-- C3: the Stream Concatenator emits, for trial `i`, exactly the
timestamps `start i + k / r` for `k < counts i`, where `counts i` is the
stream's own per-trial sample count; the whole array has exactly
`counts.sum` entries (so nothing is inserted for the Gap Intervals) and
the trials appear in index order at the prefix-sum positions. -/
theorem claim3_stream_concatenator (ds : List ℚ) (g : ℚ) (counts : List ℕ) (r : ℚ)
    (hlen : counts.length = ds.length) :
    (concatTimestamps ds g counts r).length = counts.sum ∧
    ∀ i k, i < ds.length → k < counts.getD i 0 →
      (concatTimestamps ds g counts r).getD ((counts.take i).sum + k) 0
        = ((buildTimeline ds g).getD i (0, 0)).1 + (k : ℚ) / r := by
  refine ⟨concatFromAux_length g r ds counts 0 hlen, ?_⟩
  intro i k hi hk
  exact concatFromAux_getD g r ds counts 0 i k hi hk

/-- C3 witness: with per-trial counts 5000, 6000, 4480 at 1000 Hz against
durations 5, 6, 4.5 s (gap 3 s), the stream's very last timestamp — index
15479 — is `21.479` s, which falls 21 ms short of the trial's
authoritative stop `21.5` s without being an error. -/
theorem claim3_witness :
    (concatTimestamps [5, 6, 9/2] 3 [5000, 6000, 4480] 1000).getD 15479 0 = 21479/1000 ∧
    (21479 : ℚ)/1000 < 43/2 := by
  have h := (claim3_stream_concatenator [5, 6, 9/2] 3 [5000, 6000, 4480] 1000
    (by norm_num)).2 2 4479 (by norm_num) (by decide)
  have e1 : (List.take 2 ([5000, 6000, 4480] : List ℕ)).sum + 4479 = 15479 := by norm_num
  have e2 : ((buildTimeline [5, 6, 9/2] 3).getD 2 (0, 0)).1 = 17 := by
    norm_num [buildTimeline, buildTimelineAux]
  rw [e1, e2] at h
  rw [h]
  norm_num

/-- C4: the Spike Format Normalizer classifies a record purely by
dimensionality.  Given the leading dimension equals the session's trial
count: a matrix record yields, per trial row, its non-padding entries
sorted ascending (a sorted permutation of the row's non-`none` values); a
vector record yields per trial a singleton for a non-padding scalar and
the empty list for padding. -/
theorem claim4_spike_format_normalizer (rec : SpikeRecord) (nTrials : ℕ)
    (hdim : spikeLeadingDim rec = nTrials) :
    (normalizeSpikes rec).length = nTrials ∧
    (∀ rows, rec = SpikeRecord.matrix rows → ∀ i, i < nTrials →
      ((normalizeSpikes rec).getD i []).Sorted (· ≤ ·) ∧
      ((normalizeSpikes rec).getD i []).Perm ((rows.getD i []).filterMap id)) ∧
    (∀ vals, rec = SpikeRecord.vector vals → ∀ i, i < nTrials →
      (∀ x, vals.getD i none = some x → (normalizeSpikes rec).getD i [] = [x]) ∧
      (vals.getD i none = none → (normalizeSpikes rec).getD i [] = [])) := by
  cases rec with
  | matrix rows0 =>
    simp only [spikeLeadingDim] at hdim
    refine ⟨by simp [normalizeSpikes, hdim], ?_, ?_⟩
    · intro rows heq i hi
      injection heq with h
      subst h
      have hlen : i < (rows0.map normalizeRow).length := by
        rw [List.length_map, hdim]
        exact hi
      have hget : (normalizeSpikes (SpikeRecord.matrix rows0)).getD i []
          = normalizeRow (rows0.getD i []) := by
        rw [normalizeSpikes, List.getD_eq_getElem _ _ hlen, List.getElem_map,
          List.getD_eq_getElem _ _ (by simpa using hlen)]
      rw [hget]
      exact ⟨List.sorted_insertionSort _ _, List.perm_insertionSort _ _⟩
    · intro vals heq i hi
      cases heq
  | vector vals0 =>
    simp only [spikeLeadingDim] at hdim
    refine ⟨by simp [normalizeSpikes, hdim], ?_, ?_⟩
    · intro rows heq i hi
      cases heq
    · intro vals heq i hi
      injection heq with h
      subst h
      have hlen : i < (normalizeSpikes (SpikeRecord.vector vals0)).length := by
        rw [normalizeSpikes, List.length_map, hdim]
        exact hi
      have hget : (normalizeSpikes (SpikeRecord.vector vals0)).getD i []
          = match vals0.getD i none with
            | some x => [x]
            | none => [] := by
        rw [List.getD_eq_getElem _ _ hlen]
        simp only [normalizeSpikes] at hlen ⊢
        rw [List.getElem_map, List.getD_eq_getElem _ _ (by simpa using hlen)]
      constructor
      · intro x hx
        rw [hget, hx]
      · intro hx
        rw [hget, hx]

/-- C4 witness: the vector record `[NaN, 244.0, NaN]` has leading
dimension 3, and its second trial normalizes to the singleton `[244]`. -/
theorem claim4_witness :
    (normalizeSpikes (SpikeRecord.vector [none, some (244 : ℚ), none])).getD 1 [] = [244] :=
  ((claim4_spike_format_normalizer (SpikeRecord.vector [none, some (244 : ℚ), none]) 3
      rfl).2.2 [none, some (244 : ℚ), none] rfl 1 (by norm_num)).1 244 rfl

theorem exceptMapM_error_iff {α β : Type} (f : α → Except String β) (l : List α) :
    (∃ e, exceptMapM f l = .error e) ↔ ∃ x ∈ l, ∃ e, f x = .error e := by
  induction l with
  | nil => simp [exceptMapM]
  | cons x xs ih =>
    cases hfx : f x with
    | error e =>
      simp only [exceptMapM, hfx]
      exact iff_of_true ⟨e, rfl⟩ ⟨x, List.mem_cons_self x xs, e, hfx⟩
    | ok y =>
      cases hmx : exceptMapM f xs with
      | error e =>
        simp only [exceptMapM, hfx, hmx]
        refine iff_of_true ⟨e, rfl⟩ ?_
        obtain ⟨x2, hx2, he⟩ := ih.mp ⟨e, hmx⟩
        exact ⟨x2, List.mem_cons_of_mem x hx2, he⟩
      | ok ys =>
        simp only [exceptMapM, hfx, hmx]
        constructor
        · rintro ⟨e, he⟩
          exact absurd he (by simp)
        · rintro ⟨x2, hx2, e2, he2⟩
          rcases List.mem_cons.mp hx2 with rfl | hmem
          · rw [hfx] at he2
            exact absurd he2 (by simp)
          · obtain ⟨e3, he3⟩ := ih.mpr ⟨x2, hmem, e2, he2⟩
            rw [hmx] at he3
            exact absurd he3 (by simp)

theorem resolveTrialDuration_error_iff (tr : RawTrial) :
    (∃ e, resolveTrialDuration tr = .error e) ↔ tr.events.lookup "end" = none := by
  cases h : tr.events.lookup "end" <;> simp [resolveTrialDuration, h]

theorem checkSpikeRecord_error_iff (n : ℕ) (rec : SpikeRecord) :
    (∃ e, checkSpikeRecord n rec = .error e) ↔ spikeLeadingDim rec ≠ n := by
  by_cases h : spikeLeadingDim rec = n <;> simp [checkSpikeRecord, h]

theorem checkStream_error_iff (n : ℕ) (s : List (List ℚ)) :
    (∃ e, checkStream n s = .error e) ↔ s.length < n := by
  by_cases h : s.length < n <;> simp [checkStream, h]

theorem trials_error_iff (l : List RawTrial) :
    (∃ e, exceptMapM resolveTrialDuration l = .error e)
      ↔ ∃ tr ∈ l, tr.events.lookup "end" = none := by
  rw [exceptMapM_error_iff]
  exact exists_congr fun tr => and_congr_right fun _ => resolveTrialDuration_error_iff tr

theorem spikes_error_iff (n : ℕ) (l : List SpikeRecord) :
    (∃ e, exceptMapM (checkSpikeRecord n) l = .error e)
      ↔ ∃ rec ∈ l, spikeLeadingDim rec ≠ n := by
  rw [exceptMapM_error_iff]
  exact exists_congr fun rec => and_congr_right fun _ => checkSpikeRecord_error_iff n rec

theorem streams_error_iff (n : ℕ) (l : List (List (List ℚ))) :
    (∃ e, exceptMapM (checkStream n) l = .error e)
      ↔ ∃ st ∈ l, st.length < n := by
  rw [exceptMapM_error_iff]
  exact exists_congr fun st => and_congr_right fun _ => checkStream_error_iff n st

/-- C6: session assembly fails with a structural error exactly when a
trial's event bag lacks the designated `end` event, a spike record's
leading dimension differs from the trial count, or a Continuous Stream's
per-trial array list is shorter than the trial count; on failure no
assembled output exists (the whole session aborts). -/
theorem claim6_structural_error (g : ℚ) (s : RawSession) :
    ((∃ e, assembleSession g s = .error e) ↔
      ((∃ tr ∈ s.trials, tr.events.lookup "end" = none) ∨
       (∃ rec ∈ s.spikeRecords, spikeLeadingDim rec ≠ s.trials.length) ∨
       (∃ st ∈ s.streams, st.length < s.trials.length))) ∧
    (∀ e, assembleSession g s = .error e → ∀ a, assembleSession g s ≠ .ok a) := by
  constructor
  · cases h1 : exceptMapM resolveTrialDuration s.trials with
    | error e =>
      simp only [assembleSession, h1]
      exact iff_of_true ⟨e, rfl⟩ (Or.inl ((trials_error_iff s.trials).mp ⟨e, h1⟩))
    | ok durations =>
      cases h2 : exceptMapM (checkSpikeRecord s.trials.length) s.spikeRecords with
      | error e =>
        simp only [assembleSession, h1, h2]
        exact iff_of_true ⟨e, rfl⟩
          (Or.inr (Or.inl ((spikes_error_iff s.trials.length s.spikeRecords).mp ⟨e, h2⟩)))
      | ok units =>
        cases h3 : exceptMapM (checkStream s.trials.length) s.streams with
        | error e =>
          simp only [assembleSession, h1, h2, h3]
          exact iff_of_true ⟨e, rfl⟩
            (Or.inr (Or.inr ((streams_error_iff s.trials.length s.streams).mp ⟨e, h3⟩)))
        | ok streams =>
          simp only [assembleSession, h1, h2, h3]
          apply iff_of_false
          · rintro ⟨e, he⟩
            exact absurd he (by simp)
          · rintro (h | h | h)
            · obtain ⟨e, he⟩ := (trials_error_iff s.trials).mpr h
              rw [h1] at he
              exact absurd he (by simp)
            · obtain ⟨e, he⟩ := (spikes_error_iff s.trials.length s.spikeRecords).mpr h
              rw [h2] at he
              exact absurd he (by simp)
            · obtain ⟨e, he⟩ := (streams_error_iff s.trials.length s.streams).mpr h
              rw [h3] at he
              exact absurd he (by simp)
  · intro e he a ha
    rw [he] at ha
    exact absurd ha (by simp)

/-- C6 witness: a session whose single trial has an empty event bag (no
`end` event) aborts with a structural error. -/
theorem claim6_witness :
    ∃ e, assembleSession 3 ⟨[⟨[]⟩], [], []⟩ = Except.error e :=
  (claim6_structural_error 3 ⟨[⟨[]⟩], [], []⟩).1.mpr
    (Or.inl ⟨⟨[]⟩, by simp, rfl⟩)

theorem concatSpikeTimes_eq_aux (g : ℚ) (ds : List ℚ) (per : List (List ℚ)) :
    concatSpikeTimes (trial_start_times ds g) per = spikesFromAux g 0 ds per := by
  rw [concatSpikeTimes, spikesFromAux, trial_start_times, buildTimeline,
    List.zipWith_map_left]

theorem spikesFromAux_cons (g t0 d : ℚ) (ds : List ℚ) (l : List ℚ) (ls : List (List ℚ)) :
    spikesFromAux g t0 (d :: ds) (l :: ls)
      = l.map (fun x => t0 + x / 1000) ++ spikesFromAux g (t0 + d + g) ds ls := by
  simp [spikesFromAux, buildTimelineAux]

theorem spikesFromAux_sorted (g : ℚ) (hg : 0 ≤ g) (ds : List ℚ) :
    ∀ (per : List (List ℚ)) (t0 : ℚ),
    (∀ d ∈ ds, 0 ≤ d) →
    (∀ i, i < ds.length → (per.getD i []).Sorted (· ≤ ·)) →
    (∀ i, i < ds.length → ∀ s ∈ per.getD i [], 0 ≤ s ∧ s < 1000 * ds.getD i 0) →
    (spikesFromAux g t0 ds per).Sorted (· ≤ ·) ∧
    ∀ x ∈ spikesFromAux g t0 ds per, t0 ≤ x := by
  induction ds with
  | nil =>
    intro per t0 _ _ _
    constructor
    · simp [spikesFromAux, buildTimelineAux, List.Sorted]
    · intro x hx
      simp [spikesFromAux, buildTimelineAux] at hx
  | cons d rest ih =>
    intro per t0 hds hsort hb
    cases per with
    | nil =>
      constructor
      · simp [spikesFromAux, buildTimelineAux, List.Sorted]
      · intro x hx
        simp [spikesFromAux, buildTimelineAux] at hx
    | cons l ls =>
      have hd : 0 ≤ d := hds d (List.mem_cons_self d rest)
      have hl : l.Sorted (· ≤ ·) := by simpa using hsort 0 (by simp)
      have hbl : ∀ s ∈ l, 0 ≤ s ∧ s < 1000 * d := by simpa using hb 0 (by simp)
      have hIH := ih ls (t0 + d + g)
        (fun x hx => hds x (List.mem_cons_of_mem d hx))
        (fun i hi => by simpa using hsort (i + 1) (by simp; omega))
        (fun i hi => by simpa using hb (i + 1) (by simp; omega))
      have hchunk_mem : ∀ x ∈ l.map (fun s => t0 + s / 1000), t0 ≤ x ∧ x < t0 + d := by
        intro x hx
        obtain ⟨s, hs, rfl⟩ := List.mem_map.mp hx
        obtain ⟨hs0, hsd⟩ := hbl s hs
        constructor
        · have : (0 : ℚ) ≤ s / 1000 := div_nonneg hs0 (by norm_num)
          linarith
        · have : s / 1000 < d := by
            rw [div_lt_iff₀ (by norm_num : (0:ℚ) < 1000)]
            linarith
          linarith
      rw [spikesFromAux_cons]
      constructor
      · rw [List.Sorted, List.pairwise_append]
        refine ⟨?_, hIH.1, ?_⟩
        · exact hl.map _ (fun a b hab => by
            have : a / 1000 ≤ b / 1000 := by linarith
            linarith)
        · intro x hx y hy
          have hx2 := (hchunk_mem x hx).2
          have hy2 := hIH.2 y hy
          linarith
      · intro x hx
        rcases List.mem_append.mp hx with hx | hx
        · exact (hchunk_mem x hx).1
        · have := hIH.2 x hx
          linarith

/-- C5: spike times of a Unit are remapped by adding the trial's start
offset after ms-to-s conversion; every spike mapped from trial `i` lands
strictly before `stop i`, and the whole concatenated spike array (trials
in index order) is sorted ascending. -/
theorem claim5_spike_remapping (ds : List ℚ) (g : ℚ) (per : List (List ℚ))
    (hg : 0 ≤ g) (hds : ∀ d ∈ ds, 0 ≤ d)
    (hsort : ∀ i, i < ds.length → (per.getD i []).Sorted (· ≤ ·))
    (hb : ∀ i, i < ds.length → ∀ s ∈ per.getD i [], 0 ≤ s ∧ s < 1000 * ds.getD i 0) :
    (∀ i, i < ds.length → ∀ s ∈ per.getD i [],
      ((buildTimeline ds g).getD i (0, 0)).1 + s / 1000
        < ((buildTimeline ds g).getD i (0, 0)).2) ∧
    (concatSpikeTimes (trial_start_times ds g) per).Sorted (· ≤ ·) := by
  constructor
  · intro i hi s hs
    have hstop := buildTimelineAux_stop g ds 0 i hi
    have hsd := (hb i hi s hs).2
    have : s / 1000 < ds.getD i 0 := by
      rw [div_lt_iff₀ (by norm_num : (0:ℚ) < 1000)]
      linarith
    rw [buildTimeline, hstop]
    linarith
  · rw [concatSpikeTimes_eq_aux]
    exact (spikesFromAux_sorted g hg ds per 0 hds hsort hb).1

/-- C5 witness: the normalized scenario-B unit (one spike at 244 ms in
trial 1) yields a sorted concatenated spike array over the 5, 6, 4.5 s
session with gap 3 s. -/
theorem claim5_witness :
    (concatSpikeTimes (trial_start_times [5, 6, 9/2] 3) [[], [244], []]).Sorted (· ≤ ·) :=
  (claim5_spike_remapping [5, 6, 9/2] 3 [[], [244], []]
    (by norm_num)
    (by intro d hd; fin_cases hd <;> norm_num)
    (by intro i hi; simp at hi; interval_cases i <;> simp)
    (by intro i hi; simp at hi; interval_cases i <;> norm_num)).2

theorem concatFromAux_sorted_lt (g r : ℚ) (hr : 0 < r) (ds : List ℚ) :
    ∀ (counts : List ℕ) (t0 : ℚ),
    (∀ i, i < ds.length → ((counts.getD i 0 : ℕ) : ℚ) ≤ (ds.getD i 0 + g) * r) →
    (concatFromAux g r t0 ds counts).Sorted (· < ·) ∧
    ∀ x ∈ concatFromAux g r t0 ds counts, t0 ≤ x := by
  induction ds with
  | nil =>
    intro counts t0 _
    constructor
    · simp [concatFromAux, buildTimelineAux, List.Sorted]
    · intro x hx
      simp [concatFromAux, buildTimelineAux] at hx
  | cons d rest ih =>
    intro counts t0 hcap
    cases counts with
    | nil =>
      constructor
      · simp [concatFromAux, buildTimelineAux, List.Sorted]
      · intro x hx
        simp [concatFromAux, buildTimelineAux] at hx
    | cons n cs =>
      have hcap0 : ((n : ℕ) : ℚ) ≤ (d + g) * r := by simpa using hcap 0 (by simp)
      have hdg : 0 ≤ d + g := by
        have h0 : (0 : ℚ) ≤ (d + g) * r := le_trans (Nat.cast_nonneg n) hcap0
        exact nonneg_of_mul_nonneg_right (mul_comm (d + g) r ▸ h0) hr
      have hIH := ih cs (t0 + d + g)
        (fun i hi => by simpa using hcap (i + 1) (by simp; omega))
      have hchunk_mem : ∀ x ∈ trialTimestamps t0 n r, t0 ≤ x ∧ x < t0 + d + g := by
        intro x hx
        obtain ⟨k, hk, rfl⟩ := by
          simpa [trialTimestamps, List.mem_map, List.mem_range] using hx
        constructor
        · have : (0 : ℚ) ≤ (k : ℚ) / r := div_nonneg (Nat.cast_nonneg k) hr.le
          linarith
        · have hkn : ((k : ℕ) : ℚ) < (d + g) * r :=
            lt_of_lt_of_le (Nat.cast_lt.mpr hk) hcap0
          have : (k : ℚ) / r < d + g := (div_lt_iff₀ hr).mpr hkn
          linarith
      rw [concatFromAux_cons]
      constructor
      · rw [List.Sorted, List.pairwise_append]
        refine ⟨?_, hIH.1, ?_⟩
        · rw [trialTimestamps]
          refine List.Pairwise.map _ (fun a b hab => ?_) (List.pairwise_lt_range n)
          gcongr
        · intro x hx y hy
          have hx2 := (hchunk_mem x hx).2
          have hy2 := hIH.2 y hy
          linarith
      · intro x hx
        rcases List.mem_append.mp hx with hx | hx
        · exact (hchunk_mem x hx).1
        · have := hIH.2 x hx
          linarith

/-- C10: under the precondition `counts i ≤ (duration i + g) * r` the
concatenated stream timestamps are strictly increasing over the whole
session; within a trial consecutive timestamps differ by exactly `1/r`,
the first timestamp of a trial equals that trial's start offset, and the
last timestamp of trial `i` stays strictly below `start (i+1)`. -/
theorem claim10_strict_monotonicity (ds : List ℚ) (g : ℚ) (counts : List ℕ) (r : ℚ)
    (hr : 0 < r)
    (hcap : ∀ i, i < ds.length → ((counts.getD i 0 : ℕ) : ℚ) ≤ (ds.getD i 0 + g) * r) :
    (concatTimestamps ds g counts r).Sorted (· < ·) ∧
    (∀ i k, k + 1 < counts.getD i 0 →
      (trialTimestamps ((buildTimeline ds g).getD i (0, 0)).1 (counts.getD i 0) r).getD (k + 1) 0
        - (trialTimestamps ((buildTimeline ds g).getD i (0, 0)).1 (counts.getD i 0) r).getD k 0
        = 1 / r) ∧
    (∀ i, 0 < counts.getD i 0 →
      (trialTimestamps ((buildTimeline ds g).getD i (0, 0)).1 (counts.getD i 0) r).getD 0 0
        = ((buildTimeline ds g).getD i (0, 0)).1) ∧
    (∀ i, i + 1 < ds.length → 0 < counts.getD i 0 →
      (trialTimestamps ((buildTimeline ds g).getD i (0, 0)).1
          (counts.getD i 0) r).getD (counts.getD i 0 - 1) 0
        < ((buildTimeline ds g).getD (i + 1) (0, 0)).1) := by
  refine ⟨(concatFromAux_sorted_lt g r hr ds counts 0 hcap).1, ?_, ?_, ?_⟩
  · intro i k hk
    rw [trialTimestamps_getD _ _ _ _ hk, trialTimestamps_getD _ _ _ _ (by omega)]
    push_cast
    ring
  · intro i hi
    rw [trialTimestamps_getD _ _ _ _ hi]
    norm_num
  · intro i hi hn
    set n := counts.getD i 0 with hn_def
    set a := ((buildTimeline ds g).getD i (0, 0)).1 with ha_def
    have hlast : (trialTimestamps a n r).getD (n - 1) 0 = a + ((n - 1 : ℕ) : ℚ) / r :=
      trialTimestamps_getD a n r (n - 1) (by omega)
    have hcast : ((n - 1 : ℕ) : ℚ) = (n : ℚ) - 1 := by
      push_cast [hn]
      ring
    have hcapi : ((n : ℕ) : ℚ) ≤ (ds.getD i 0 + g) * r := hcap i (by omega)
    have hstep : ((n : ℚ) - 1) / r < ds.getD i 0 + g := by
      rw [div_lt_iff₀ hr]
      linarith
    have hsucc : ((buildTimeline ds g).getD (i + 1) (0, 0)).1
        = ((buildTimeline ds g).getD i (0, 0)).2 + g :=
      buildTimelineAux_succ_start g ds 0 i hi
    have hstop : ((buildTimeline ds g).getD i (0, 0)).2
        = ((buildTimeline ds g).getD i (0, 0)).1 + ds.getD i 0 :=
      buildTimelineAux_stop g ds 0 i (by omega)
    rw [hlast, hcast, hsucc, hstop]
    linarith

/-- C10 witness: for the scenario-C stream (counts 5000, 6000, 4480 at
1000 Hz over durations 5, 6, 4.5 s with gap 3 s), the last timestamp of
trial 1 stays strictly below the start of trial 2. -/
theorem claim10_witness :
    (trialTimestamps 8 6000 1000).getD 5999 0 < 17 := by
  have h := (claim10_strict_monotonicity [5, 6, 9/2] 3 [5000, 6000, 4480] 1000
    (by norm_num)
    (by intro i hi; simp at hi; interval_cases i <;> norm_num)).2.2.2 1
    (by norm_num) (by norm_num)
  have e1 : ((buildTimeline [5, 6, 9/2] 3).getD 1 (0, 0)).1 = 8 := by
    norm_num [buildTimeline, buildTimelineAux]
  have e2 : ((buildTimeline [5, 6, 9/2] 3).getD 2 (0, 0)).1 = 17 := by
    norm_num [buildTimeline, buildTimelineAux]
  have e3 : ([5000, 6000, 4480] : List ℕ).getD 1 0 = 6000 := rfl
  rw [e1, e2, e3] at h
  exact h

end TurnerLab
